import Mathlib

/-!
Verification of the grit playlist version-control engine.

The development shallowly embeds the Rust sources: pure functions become Lean
functions, in-place mutation becomes functional record update, `Result`-valued
fallible code becomes `Except`, and the ambient clock (`Utc::now`,
`SystemTime::now`) is passed as an explicit `Nat` argument.  Machine integers
are `Nat` with explicit `% 2^w` where overflow matters.

Two remarks on fidelity, stated once here and referenced from the definitions:

* Rust `HashMap` iteration order is unspecified, and both the code comments and
  the design notes state that nothing downstream may depend on it.  The
  embedding fixes the iteration order to first-insertion order (which is one
  of the orders a `HashMap` may produce).  Counterexamples below were chosen
  so that they fail under every iteration order, not just the chosen one.

* Rust `sort_by` is a stable sort; the embedding uses a stable insertion sort,
  which is extensionally the same function.
-/

namespace Grit

/-- Provider tag (`ProviderKind`, declared in `provider/types.rs` which is
absent from the sources; the variants are the two constructed throughout
`provider/spotify.rs` and `cli/commands/init.rs`). -/
inductive ProviderKind where
  | Spotify
  | Youtube
deriving DecidableEq, Repr

/-- Modelled from the spec: `Track` (§3), whose declaring file
`provider/types.rs` is absent from the sources.  Fields and their order follow
the construction sites in `SpotifyProvider::fetch` / `search_by_query`
(`id`, `name`, `artists`, `duration_ms`, `provider`, `metadata`); the opaque
provider-specific metadata is modelled as an optional string. -/
structure Track where
  id : String
  name : String
  artists : List String
  duration_ms : Nat
  provider : ProviderKind
  metadata : Option String
deriving DecidableEq, Repr

/-- Modelled from the spec: `PlaylistSnapshot` (§3), whose declaring file
`provider/types.rs` is absent from the sources.  Fields follow the
construction site at the end of `SpotifyProvider::fetch`: playlist id,
display name, optional description, ordered track list, provider kind, and
the provider-supplied revision token `snapshot_hash` (distinct from the
system's own content hash), plus opaque metadata. -/
structure PlaylistSnapshot where
  id : String
  name : String
  description : Option String
  tracks : List Track
  provider : ProviderKind
  snapshot_hash : String
  metadata : Option String
deriving DecidableEq, Repr

/-- Modelled from the spec: `TrackChange` (§3), whose declaring file
`provider/types.rs` is absent from the sources.  The three variants carry the
payloads used by `state/diff.rs` and `provider/spotify.rs`; Rust's field
names `from`/`to` of `Moved` become `fromIdx`/`toIdx` (`from` is a Lean
keyword). -/
inductive TrackChange where
  | Added (track : Track) (index : Nat)
  | Removed (track : Track) (index : Nat)
  | Moved (track : Track) (fromIdx toIdx : Nat)
deriving DecidableEq, Repr

/-- Modelled from the spec: `DiffPatch` (§3) — the collection of changes,
whose declaring file `provider/types.rs` is absent from the sources. -/
structure DiffPatch where
  changes : List TrackChange
deriving DecidableEq, Repr

/-- A snapshot has no duplicate track ids (the hypothesis of the diff/apply
round-trip property P1). -/
def nodupIds (s : PlaylistSnapshot) : Prop := (s.tracks.map Track.id).Nodup

instance (s : PlaylistSnapshot) : Decidable (nodupIds s) := by
  unfold nodupIds; infer_instance

/-! ## `apply_patch` (`state/diff.rs`, lines 58-110) -/

/-- Insert one removal record into a list sorted by descending index, keeping
records with equal indices in their original relative order.  Folding this
over the removal list is the stable descending sort performed by
`removals.sort_by(|a, b| b.0.cmp(&a.0))`. -/
def insertDescBy (x : Nat × TrackChange) :
    List (Nat × TrackChange) → List (Nat × TrackChange)
  | [] => [x]
  | y :: ys => if y.1 ≤ x.1 then x :: y :: ys else y :: insertDescBy x ys

/-- Stable sort of the removal records by descending index
(`removals.sort_by(|a, b| b.0.cmp(&a.0))`). -/
def sortDescChanges (l : List (Nat × TrackChange)) : List (Nat × TrackChange) :=
  l.foldr insertDescBy []

/-- One iteration of the removal loop: `if *index < snapshot.tracks.len()
{ snapshot.tracks.remove(*index); }`. -/
def removeStep (ts : List Track) (i : Nat) : List Track :=
  if i < ts.length then ts.eraseIdx i else ts

/-- One iteration of the addition loop: `if *index <= snapshot.tracks.len()
{ snapshot.tracks.insert(*index, track.clone()); } else
{ snapshot.tracks.push(track.clone()); }`. -/
def addStep (ts : List Track) (t : Track) (i : Nat) : List Track :=
  if i ≤ ts.length then ts.insertIdx i t else ts ++ [t]

/-- One iteration of the move loop: `if *from < len && *to < len
{ let track = snapshot.tracks.remove(*from); snapshot.tracks.insert(*to, track); }`.
Note the moved element is the one removed at `fromIdx`, not the patch's track
payload, exactly as in the source. -/
def moveStep (ts : List Track) (f t : Nat) : List Track :=
  if h : f < ts.length ∧ t < ts.length then
    (ts.eraseIdx f).insertIdx t (ts.get ⟨f, h.1⟩)
  else ts

/-- The removal records of a patch, paired with their index, in patch order
(the first classification loop of `apply_patch`). -/
def removalRecords (p : DiffPatch) : List (Nat × TrackChange) :=
  p.changes.filterMap fun c =>
    match c with
    | .Removed _ i => some (i, c)
    | _ => none

/-- The addition records of a patch, in patch order. -/
def additionRecords (p : DiffPatch) : List TrackChange :=
  p.changes.filter fun c =>
    match c with
    | .Added _ _ => true
    | _ => false

/-- The move records of a patch, in patch order. -/
def moveRecords (p : DiffPatch) : List TrackChange :=
  p.changes.filter fun c =>
    match c with
    | .Moved _ _ _ => true
    | _ => false

/-- The removal loop of `apply_patch` over an (already sorted) record list. -/
def removePass (ts : List Track) (rs : List (Nat × TrackChange)) : List Track :=
  rs.foldl (fun l ic => removeStep l ic.1) ts

/-- The addition loop of `apply_patch`. -/
def addPass (ts : List Track) (cs : List TrackChange) : List Track :=
  cs.foldl (fun l c =>
    match c with
    | .Added t i => addStep l t i
    | _ => l) ts

/-- The move loop of `apply_patch`. -/
def movePass (ts : List Track) (cs : List TrackChange) : List Track :=
  cs.foldl (fun l c =>
    match c with
    | .Moved _ f t => moveStep l f t
    | _ => l) ts

/-- `apply_patch` (`state/diff.rs` lines 58-110): classify the changes into
removals, additions and moves, sort the removals by descending index, then run
the three loops in that order.  The Rust function mutates the snapshot in
place and always returns `Ok(())`; the embedding returns the updated
snapshot. -/
def applyPatch (snapshot : PlaylistSnapshot) (patch : DiffPatch) : PlaylistSnapshot :=
  let removals := patch.changes.filterMap fun c =>
    match c with
    | .Removed _ i => some (i, c)
    | _ => none
  let additions := patch.changes.filter fun c =>
    match c with
    | .Added _ _ => true
    | _ => false
  let moves := patch.changes.filter fun c =>
    match c with
    | .Moved _ _ _ => true
    | _ => false
  let sorted := removals.foldr insertDescBy []
  let tracks1 := sorted.foldl (fun l ic => removeStep l ic.1) snapshot.tracks
  let tracks2 := additions.foldl (fun l c =>
    match c with
    | .Added t i => addStep l t i
    | _ => l) tracks1
  let tracks3 := moves.foldl (fun l c =>
    match c with
    | .Moved _ f t => moveStep l f t
    | _ => l) tracks2
  { snapshot with tracks := tracks3 }

/-! ## `diff` (`state/diff.rs`, lines 6-56) -/

/-- `tracks.iter().enumerate().map(|(idx, track)| (track.id.clone(), (idx, track)))`,
with the enumeration offset made explicit for induction. -/
def idxListFrom (k : Nat) : List Track → List (String × Nat × Track)
  | [] => []
  | t :: ts => (t.id, k, t) :: idxListFrom (k + 1) ts

/-- Insert one `(id, (index, track))` binding into the map being collected:
`HashMap` insertion overwrites the value of an existing key and otherwise adds
a new entry.  (Iteration order of a `HashMap` is unspecified; the embedding
keeps first-insertion order, see the header note.) -/
def insertEntry (acc : List (String × Nat × Track)) (e : String × Nat × Track) :
    List (String × Nat × Track) :=
  if acc.any (fun x => x.1 == e.1) then
    acc.map (fun x => if x.1 == e.1 then (x.1, e.2) else x)
  else acc ++ [e]

/-- The `idx_map : track_id -> (index, &Track)` built by `collect()` in
`diff`. -/
def mapEntries (ts : List Track) : List (String × Nat × Track) :=
  (idxListFrom 0 ts).foldl insertEntry []

/-- The first emission loop of `diff`: ids present in `old_map` but not in
`new_map` become `Removed { track, index = old position }`. -/
def diffRemoved (old_map new_map : List (String × Nat × Track)) : List TrackChange :=
  (old_map.filter fun e => (new_map.lookup e.1).isNone).map
    fun e => TrackChange.Removed e.2.2 e.2.1

/-- The second emission loop of `diff`: ids present in `new_map` but not in
`old_map` become `Added { track, index = new position }`. -/
def diffAdded (old_map new_map : List (String × Nat × Track)) : List TrackChange :=
  (new_map.filter fun e => (old_map.lookup e.1).isNone).map
    fun e => TrackChange.Added e.2.2 e.2.1

/-- The body of the third emission loop of `diff`, for one `new_map` entry:
an id also present in `old_map` at a different position becomes
`Moved { track, from = old position, to = new position }`. -/
def diffMovedF (old_map : List (String × Nat × Track)) (e : String × Nat × Track) :
    Option TrackChange :=
  match old_map.lookup e.1 with
  | some (old_index, _) =>
      if old_index ≠ e.2.1 then some (TrackChange.Moved e.2.2 old_index e.2.1)
      else none
  | none => none

/-- The third emission loop of `diff`. -/
def diffMoved (old_map new_map : List (String × Nat × Track)) : List TrackChange :=
  new_map.filterMap (diffMovedF old_map)

/-- `diff` (`state/diff.rs` lines 6-56): build the two id-keyed maps, emit
`Removed` for ids only in `old`, `Added` for ids only in `new`, and `Moved`
for ids in both whose positions differ, pushing the three classes into one
change vector in that order (each helper above is one of the three `for`
loops of the source). -/
def diff (old newSnap : PlaylistSnapshot) : DiffPatch :=
  let old_map := mapEntries old.tracks
  let new_map := mapEntries newSnap.tracks
  { changes :=
      diffRemoved old_map new_map ++ diffAdded old_map new_map
        ++ diffMoved old_map new_map }

/-! ## Properties of the patch applier -/

/-- Descending order on removal records: the earlier record's index is the
larger one. -/
def descRec (a b : Nat × TrackChange) : Prop := b.1 ≤ a.1

theorem applyPatch_tracks (s : PlaylistSnapshot) (p : DiffPatch) :
    (applyPatch s p).tracks
      = movePass
          (addPass (removePass s.tracks (sortDescChanges (removalRecords p)))
            (additionRecords p))
          (moveRecords p) := rfl

theorem perm_insertDescBy (x : Nat × TrackChange) (l : List (Nat × TrackChange)) :
    (insertDescBy x l).Perm (x :: l) := by
  induction l with
  | nil => simp [insertDescBy]
  | cons y ys ih =>
    by_cases h : y.1 ≤ x.1
    · simp [insertDescBy, h]
    · simp only [insertDescBy, if_neg h]
      exact (ih.cons y).trans (List.Perm.swap x y ys)

theorem sorted_insertDescBy (x : Nat × TrackChange) (l : List (Nat × TrackChange))
    (h : l.Sorted descRec) : (insertDescBy x l).Sorted descRec := by
  induction l with
  | nil => simp [insertDescBy, List.Sorted]
  | cons y ys ih =>
    rcases List.sorted_cons.mp h with ⟨hy, hys⟩
    by_cases hle : y.1 ≤ x.1
    · simp only [insertDescBy, if_pos hle]
      refine List.sorted_cons.mpr ⟨?_, h⟩
      intro z hz
      rcases List.mem_cons.mp hz with rfl | hz
      · exact hle
      · exact le_trans (hy z hz) hle
    · simp only [insertDescBy, if_neg hle]
      refine List.sorted_cons.mpr ⟨?_, ih hys⟩
      intro z hz
      rcases List.mem_cons.mp ((perm_insertDescBy x ys).mem_iff.mp hz) with rfl | hz
      · exact le_of_lt (lt_of_not_le hle)
      · exact hy z hz

theorem perm_sortDescChanges (l : List (Nat × TrackChange)) :
    (sortDescChanges l).Perm l := by
  induction l with
  | nil => rfl
  | cons x xs ih =>
    exact (perm_insertDescBy x (sortDescChanges xs)).trans (ih.cons x)

theorem sorted_sortDescChanges (l : List (Nat × TrackChange)) :
    (sortDescChanges l).Sorted descRec := by
  induction l with
  | nil => simp [sortDescChanges, List.Sorted]
  | cons x xs ih => exact sorted_insertDescBy x (sortDescChanges xs) ih

/-- C2: `apply_patch` runs removals (sorted into descending index order),
then additions in patch order (insert at the index, append when it exceeds
the current length), then moves in patch order, and an out-of-range move is
a no-op. -/
theorem apply_patch_phase_order :
    (∀ (s : PlaylistSnapshot) (p : DiffPatch),
      applyPatch s p
        = { s with tracks :=
            (movePass
              (addPass (removePass s.tracks (sortDescChanges (removalRecords p)))
                (additionRecords p))
              (moveRecords p)) })
    ∧ (∀ rs : List (Nat × TrackChange),
        (sortDescChanges rs).Sorted descRec ∧ (sortDescChanges rs).Perm rs)
    ∧ (∀ (ts : List Track) (t : Track) (i : Nat),
        (i ≤ ts.length → addStep ts t i = ts.insertIdx i t)
        ∧ (ts.length < i → addStep ts t i = ts ++ [t]))
    ∧ (∀ (ts : List Track) (f t : Nat),
        ts.length ≤ f ∨ ts.length ≤ t → moveStep ts f t = ts) := by
  refine ⟨fun s p => rfl, fun rs => ⟨sorted_sortDescChanges rs, perm_sortDescChanges rs⟩,
    fun ts t i => ⟨fun h => if_pos h, fun h => if_neg (not_le.mpr h)⟩,
    fun ts f t h => ?_⟩
  apply dif_neg
  rintro ⟨h1, h2⟩
  rcases h with h | h
  · exact absurd h1 (not_lt.mpr h)
  · exact absurd h2 (not_lt.mpr h)

/-- C9: `apply_patch` writes only `snapshot.tracks`; every other field of the
snapshot is returned unchanged. -/
theorem apply_patch_frame :
    ∀ (s : PlaylistSnapshot) (p : DiffPatch),
      (applyPatch s p).id = s.id
      ∧ (applyPatch s p).name = s.name
      ∧ (applyPatch s p).description = s.description
      ∧ (applyPatch s p).provider = s.provider
      ∧ (applyPatch s p).snapshot_hash = s.snapshot_hash
      ∧ (applyPatch s p).metadata = s.metadata :=
  fun _ _ => ⟨rfl, rfl, rfl, rfl, rfl, rfl⟩

/-- The six orderings in which removal records at indices 2, 5 and 7 can
appear in `patch.changes` (property P5). -/
def sixOrderings (t1 t2 t3 : Track) : List (List TrackChange) :=
  [[.Removed t1 2, .Removed t2 5, .Removed t3 7],
   [.Removed t1 2, .Removed t3 7, .Removed t2 5],
   [.Removed t2 5, .Removed t1 2, .Removed t3 7],
   [.Removed t2 5, .Removed t3 7, .Removed t1 2],
   [.Removed t3 7, .Removed t1 2, .Removed t2 5],
   [.Removed t3 7, .Removed t2 5, .Removed t1 2]]

theorem removePass_257 (ts : List Track) (h : ts.length = 10) (a b c : TrackChange) :
    removePass ts [(7, a), (5, b), (2, c)]
      = ((ts.eraseIdx 7).eraseIdx 5).eraseIdx 2 := by
  simp [removePass, removeStep, List.length_eraseIdx, h]

theorem erase257_length (ts : List Track) (h : ts.length = 10) :
    (((ts.eraseIdx 7).eraseIdx 5).eraseIdx 2).length = 7 := by
  simp [List.length_eraseIdx, h]

theorem applyPatch_sorted_257 (s : PlaylistSnapshot) (h : s.tracks.length = 10)
    (t1 t2 t3 : Track) (cs : List TrackChange)
    (e : (applyPatch s ⟨cs⟩).tracks
        = removePass s.tracks
            [(7, TrackChange.Removed t3 7), (5, TrackChange.Removed t2 5),
             (2, TrackChange.Removed t1 2)]) :
    (applyPatch s ⟨cs⟩).tracks = ((s.tracks.eraseIdx 7).eraseIdx 5).eraseIdx 2
    ∧ (applyPatch s ⟨cs⟩).tracks.length = 7 := by
  rw [e, removePass_257 s.tracks h]
  exact ⟨rfl, erase257_length s.tracks h⟩

/-- C6: applying a patch holding removals at indices 2, 5 and 7 — in any of
the six possible orders — to a 10-track snapshot removes exactly those three
positions (so the same 7-track result in every order). -/
theorem removal_order_insensitive (s : PlaylistSnapshot) (t1 t2 t3 : Track)
    (cs : List TrackChange) (h : s.tracks.length = 10)
    (hcs : cs ∈ sixOrderings t1 t2 t3) :
    (applyPatch s ⟨cs⟩).tracks = ((s.tracks.eraseIdx 7).eraseIdx 5).eraseIdx 2
    ∧ (applyPatch s ⟨cs⟩).tracks.length = 7 := by
  simp only [sixOrderings, List.mem_cons, List.not_mem_nil, or_false] at hcs
  rcases hcs with rfl | rfl | rfl | rfl | rfl | rfl
  · exact applyPatch_sorted_257 s h t1 t2 t3 _ rfl
  · exact applyPatch_sorted_257 s h t1 t2 t3 _ rfl
  · exact applyPatch_sorted_257 s h t1 t2 t3 _ rfl
  · exact applyPatch_sorted_257 s h t1 t2 t3 _ rfl
  · exact applyPatch_sorted_257 s h t1 t2 t3 _ rfl
  · exact applyPatch_sorted_257 s h t1 t2 t3 _ rfl

/-- A small concrete track used by the witness theorems. -/
def wTrack (s : String) : Track :=
  { id := s, name := s, artists := [], duration_ms := 0,
    provider := .Spotify, metadata := none }

/-- A concrete 10-track snapshot used by the witness theorems. -/
def wTen : PlaylistSnapshot :=
  { id := "p", name := "P", description := none,
    tracks := [wTrack "0", wTrack "1", wTrack "2", wTrack "3", wTrack "4",
               wTrack "5", wTrack "6", wTrack "7", wTrack "8", wTrack "9"],
    provider := .Spotify, snapshot_hash := "r", metadata := none }

theorem removal_order_insensitive_witness :
    (applyPatch wTen
        ⟨[TrackChange.Removed (wTrack "a") 5, TrackChange.Removed (wTrack "b") 2,
          TrackChange.Removed (wTrack "c") 7]⟩).tracks
      = ((wTen.tracks.eraseIdx 7).eraseIdx 5).eraseIdx 2
    ∧ (applyPatch wTen
        ⟨[TrackChange.Removed (wTrack "a") 5, TrackChange.Removed (wTrack "b") 2,
          TrackChange.Removed (wTrack "c") 7]⟩).tracks.length = 7 :=
  removal_order_insensitive wTen (wTrack "b") (wTrack "a") (wTrack "c") _
    (by decide) (by decide)

theorem apply_patch_phase_order_witness :
    moveStep [wTrack "0"] 1 0 = [wTrack "0"]
    ∧ addStep [wTrack "0"] (wTrack "1") 2 = [wTrack "0", wTrack "1"] :=
  ⟨apply_patch_phase_order.2.2.2 [wTrack "0"] 1 0 (Or.inl (by decide)),
   (apply_patch_phase_order.2.2.1 [wTrack "0"] (wTrack "1") 2).2 (by decide)⟩

/-! ## Properties of `diff` and the round trip -/

theorem idxListFrom_append (k : Nat) (xs ys : List Track) :
    idxListFrom k (xs ++ ys)
      = idxListFrom k xs ++ idxListFrom (k + xs.length) ys := by
  induction xs generalizing k with
  | nil => simp [idxListFrom]
  | cons x xs ih =>
    simp [idxListFrom, ih, Nat.add_comm, Nat.add_assoc, Nat.add_left_comm]

theorem keys_idxListFrom (k : Nat) (ts : List Track) :
    (idxListFrom k ts).map Prod.fst = ts.map Track.id := by
  induction ts generalizing k with
  | nil => rfl
  | cons t ts ih => simp [idxListFrom, ih]

theorem fst_mem_of_mem_idxListFrom {e : String × Nat × Track} {k : Nat}
    {ts : List Track} (h : e ∈ idxListFrom k ts) : e.1 ∈ ts.map Track.id := by
  have := List.mem_map_of_mem Prod.fst h
  rwa [keys_idxListFrom] at this

theorem lookup_idxListFrom_of_not_mem {i : String} {k : Nat} {ts : List Track}
    (h : i ∉ ts.map Track.id) : (idxListFrom k ts).lookup i = none := by
  induction ts generalizing k with
  | nil => rfl
  | cons t ts ih =>
    simp only [List.map_cons, List.mem_cons, not_or] at h
    simp [idxListFrom, List.lookup, beq_eq_false_iff_ne.mpr h.1, ih h.2]

theorem lookup_idxListFrom_of_mem {ts : List Track}
    (hnd : (ts.map Track.id).Nodup) {k : Nat} {e : String × Nat × Track}
    (he : e ∈ idxListFrom k ts) : (idxListFrom k ts).lookup e.1 = some e.2 := by
  induction ts generalizing k with
  | nil => cases he
  | cons t ts ih =>
    have hnd2 : t.id ∉ ts.map Track.id ∧ (ts.map Track.id).Nodup := by
      rw [List.map_cons, List.nodup_cons] at hnd; exact hnd
    rcases List.mem_cons.mp he with rfl | he'
    · simp [idxListFrom, List.lookup]
    · have hne : e.1 ≠ t.id := by
        intro hEq
        exact hnd2.1 (hEq ▸ fst_mem_of_mem_idxListFrom he')
      simp only [idxListFrom, List.lookup, beq_eq_false_iff_ne.mpr hne]
      exact ih hnd2.2 he'

theorem foldl_insertEntry (l : List (String × Nat × Track)) :
    ∀ acc : List (String × Nat × Track),
      (acc.map Prod.fst ++ l.map Prod.fst).Nodup →
      l.foldl insertEntry acc = acc ++ l := by
  induction l with
  | nil => intro acc _; simp
  | cons e l ih =>
    intro acc h
    rw [List.map_cons] at h
    have hdisj : (acc.map Prod.fst).Disjoint (e.1 :: l.map Prod.fst) :=
      (List.nodup_append.mp h).2.2
    have hnot : acc.any (fun x => x.1 == e.1) = false := by
      rw [List.any_eq_false]
      intro x hx hbe
      have hx1 : x.1 = e.1 := by simpa using hbe
      exact hdisj (List.mem_map_of_mem Prod.fst hx) (by simp [hx1])
    have hstep : insertEntry acc e = acc ++ [e] := by
      rw [insertEntry, if_neg]
      simp [hnot]
    have h' : ((acc ++ [e]).map Prod.fst ++ l.map Prod.fst).Nodup := by
      rw [List.map_append, List.append_assoc]
      simpa using h
    rw [List.foldl_cons, hstep, ih (acc ++ [e]) h']
    simp

theorem mapEntries_eq_of_nodup {ts : List Track}
    (h : (ts.map Track.id).Nodup) : mapEntries ts = idxListFrom 0 ts := by
  have := foldl_insertEntry (idxListFrom 0 ts) []
    (by simpa [keys_idxListFrom] using h)
  simpa [mapEntries] using this

theorem diffRemoved_append_nil (A C : List Track)
    (h : ((A ++ C).map Track.id).Nodup) :
    diffRemoved (idxListFrom 0 A) (idxListFrom 0 (A ++ C)) = [] := by
  rw [diffRemoved, List.filter_eq_nil_iff.mpr, List.map_nil]
  intro e he
  have heB : e ∈ idxListFrom 0 (A ++ C) := by
    rw [idxListFrom_append]
    exact List.mem_append_left _ he
  rw [lookup_idxListFrom_of_mem h heB]
  simp

theorem diffAdded_append (A C : List Track)
    (h : ((A ++ C).map Track.id).Nodup) :
    diffAdded (idxListFrom 0 A) (idxListFrom 0 (A ++ C))
      = (idxListFrom A.length C).map fun e => TrackChange.Added e.2.2 e.2.1 := by
  rw [List.map_append] at h
  rcases List.nodup_append.mp h with ⟨hA, _, hdisj⟩
  rw [diffAdded, idxListFrom_append, List.filter_append]
  have p1 : (idxListFrom 0 A).filter
      (fun e => ((idxListFrom 0 A).lookup e.1).isNone) = [] := by
    rw [List.filter_eq_nil_iff.mpr]
    intro e he
    rw [lookup_idxListFrom_of_mem hA he]
    simp
  have p2 : (idxListFrom (0 + A.length) C).filter
      (fun e => ((idxListFrom 0 A).lookup e.1).isNone)
      = idxListFrom (0 + A.length) C := by
    rw [List.filter_eq_self.mpr]
    intro e he
    have hCmem : e.1 ∈ C.map Track.id := fst_mem_of_mem_idxListFrom he
    have hnotA : e.1 ∉ A.map Track.id := fun hin => hdisj hin hCmem
    rw [lookup_idxListFrom_of_not_mem hnotA]
    simp
  rw [p1, p2]
  simp

theorem diffMoved_append_nil (A C : List Track)
    (h : ((A ++ C).map Track.id).Nodup) :
    diffMoved (idxListFrom 0 A) (idxListFrom 0 (A ++ C)) = [] := by
  have hA : (A.map Track.id).Nodup := by
    rw [List.map_append] at h
    exact (List.nodup_append.mp h).1
  have hdisj : (A.map Track.id).Disjoint (C.map Track.id) := by
    rw [List.map_append] at h
    exact (List.nodup_append.mp h).2.2
  rw [diffMoved, idxListFrom_append, List.filterMap_append]
  have q1 : (idxListFrom 0 A).filterMap (diffMovedF (idxListFrom 0 A)) = [] := by
    rw [List.filterMap_eq_nil_iff.mpr]
    rintro ⟨eid, ei, et⟩ he
    rw [diffMovedF, lookup_idxListFrom_of_mem hA he]
    simp
  have q2 : (idxListFrom (0 + A.length) C).filterMap
      (diffMovedF (idxListFrom 0 A)) = [] := by
    rw [List.filterMap_eq_nil_iff.mpr]
    intro e he
    have hCmem : e.1 ∈ C.map Track.id := fst_mem_of_mem_idxListFrom he
    have hnotA : e.1 ∉ A.map Track.id := fun hin => hdisj hin hCmem
    rw [diffMovedF, lookup_idxListFrom_of_not_mem hnotA]
  rw [q1, q2]
  rfl

/-- Under the no-duplicates hypothesis, the diff of a snapshot against itself
extended by appended tracks consists exactly of the `Added` records for the
appended part, at their final positions. -/
theorem diff_append (A : PlaylistSnapshot) (C : List Track)
    (h : ((A.tracks ++ C).map Track.id).Nodup) :
    diff A { A with tracks := A.tracks ++ C }
      = ⟨(idxListFrom A.tracks.length C).map
          fun e => TrackChange.Added e.2.2 e.2.1⟩ := by
  have hA : (A.tracks.map Track.id).Nodup := by
    rw [List.map_append] at h
    exact (List.nodup_append.mp h).1
  show (⟨diffRemoved (mapEntries A.tracks) (mapEntries (A.tracks ++ C))
      ++ diffAdded (mapEntries A.tracks) (mapEntries (A.tracks ++ C))
      ++ diffMoved (mapEntries A.tracks) (mapEntries (A.tracks ++ C))⟩ : DiffPatch) = _
  rw [mapEntries_eq_of_nodup hA, mapEntries_eq_of_nodup h,
    diffRemoved_append_nil _ _ h, diffAdded_append _ _ h, diffMoved_append_nil _ _ h]
  simp

/-- Folding the addition loop over `Added` records whose indices continue the
current length appends the corresponding tracks in order. -/
theorem addPass_appends (C : List Track) :
    ∀ (L : List Track) (k : Nat), k = L.length →
      addPass L ((idxListFrom k C).map fun e => TrackChange.Added e.2.2 e.2.1)
        = L ++ C := by
  induction C with
  | nil => intro L k _; simp [addPass, idxListFrom]
  | cons t C ih =>
    intro L k hk
    have h1 : addStep L t k = L ++ [t] := by
      subst hk
      rw [addStep, if_pos (le_refl _), List.insertIdx_length_self]
    show addPass (addStep L t k)
        ((idxListFrom (k + 1) C).map fun e => TrackChange.Added e.2.2 e.2.1)
      = L ++ t :: C
    rw [h1, ih (L ++ [t]) (k + 1) (by simp [hk])]
    simp

/-- C1 (amended): the diff/apply round trip holds for append-only edits —
when `B` extends `A` by appending tracks and has no duplicate ids, applying
`diff(A, B)` to `A` yields `B`.  (The unrestricted round trip fails; see the
counterexample.) -/
theorem diff_apply_roundtrip_append (A : PlaylistSnapshot) (C : List Track)
    (h : nodupIds { A with tracks := A.tracks ++ C }) :
    applyPatch A (diff A { A with tracks := A.tracks ++ C })
      = { A with tracks := A.tracks ++ C } := by
  have hnd : ((A.tracks ++ C).map Track.id).Nodup := h
  rw [diff_append A C hnd]
  have ht : (applyPatch A
      ⟨(idxListFrom A.tracks.length C).map
        fun e => TrackChange.Added e.2.2 e.2.1⟩).tracks = A.tracks ++ C := by
    rw [applyPatch_tracks]
    have hrem : removalRecords
        ⟨(idxListFrom A.tracks.length C).map
          fun e => TrackChange.Added e.2.2 e.2.1⟩ = [] := by
      rw [removalRecords, List.filterMap_map, List.filterMap_eq_nil_iff.mpr]
      intro e _
      rfl
    have hmov : moveRecords
        ⟨(idxListFrom A.tracks.length C).map
          fun e => TrackChange.Added e.2.2 e.2.1⟩ = [] := by
      rw [moveRecords, List.filter_map, List.filter_eq_nil_iff.mpr, List.map_nil]
      intro e _ hx
      exact Bool.noConfusion hx
    have hadd : additionRecords
        ⟨(idxListFrom A.tracks.length C).map
          fun e => TrackChange.Added e.2.2 e.2.1⟩
        = (idxListFrom A.tracks.length C).map
            fun e => TrackChange.Added e.2.2 e.2.1 := by
      rw [additionRecords, List.filter_eq_self.mpr]
      intro c hc
      rcases List.mem_map.mp hc with ⟨e, _, rfl⟩
      rfl
    rw [hrem, hmov, hadd]
    show addPass (removePass A.tracks (sortDescChanges []))
        ((idxListFrom A.tracks.length C).map
          fun e => TrackChange.Added e.2.2 e.2.1) = A.tracks ++ C
    exact addPass_appends C A.tracks A.tracks.length rfl
  calc applyPatch A ⟨(idxListFrom A.tracks.length C).map
          fun e => TrackChange.Added e.2.2 e.2.1⟩
      = { A with tracks := (applyPatch A
          ⟨(idxListFrom A.tracks.length C).map
            fun e => TrackChange.Added e.2.2 e.2.1⟩).tracks } := rfl
    _ = { A with tracks := A.tracks ++ C } := by rw [ht]

/-- The two-track snapshot `[x, y]` used to refute the unrestricted round
trip. -/
def cxA : PlaylistSnapshot :=
  { id := "p", name := "P", description := none,
    tracks := [wTrack "x", wTrack "y"],
    provider := .Spotify, snapshot_hash := "r", metadata := none }

/-- The swapped snapshot `[y, x]`. -/
def cxB : PlaylistSnapshot := { cxA with tracks := [wTrack "y", wTrack "x"] }

/-- C1 (counterexample): duplicate-free snapshots whose diff/apply round trip
fails.  `diff(A, B)` for the swap `[x, y] → [y, x]` is two `Moved` records
with pre-state indices; the move loop of `apply_patch` executes them against
the already-updated sequence, and the result is `[x, y]`, not `B`.  (The
same failure occurs for either emission order of the two `Moved` records, so
it does not depend on the embedding's `HashMap` iteration order.) -/
theorem diff_apply_roundtrip_counterexample :
    nodupIds cxA ∧ nodupIds cxB
    ∧ applyPatch cxA (diff cxA cxB) ≠ cxB
    ∧ applyPatch cxA (diff cxA cxB) = cxA := by decide

theorem diff_apply_roundtrip_append_witness :
    applyPatch cxA (diff cxA { cxA with tracks := cxA.tracks ++ [wTrack "z"] })
      = { cxA with tracks := cxA.tracks ++ [wTrack "z"] } :=
  diff_apply_roundtrip_append cxA [wTrack "z"] (by decide)

/-! ## Spotify provider (`provider/spotify.rs`) -/

/-- Modelled from the spec: `OAuthToken` (§3), whose declaring file
`provider/types.rs` is absent from the sources.  Fields follow the
construction site `SpotifyTokenResponse::into_oauth_token`. -/
structure OAuthToken where
  access_token : String
  refresh_token : Option String
  expires_at : Option Nat
  token_type : String
  scope : Option String
deriving DecidableEq, Repr

/-- The deserialized Spotify token-endpoint response
(`SpotifyTokenResponse`, `provider/spotify.rs` lines 19-26). -/
structure SpotifyTokenResponse where
  access_token : String
  token_type : String
  expires_in : Nat
  refresh_token : Option String
  scope : Option String
deriving DecidableEq, Repr

/-- `SpotifyTokenResponse::into_oauth_token` (`provider/spotify.rs` lines
71-89); `SystemTime::now()` seconds are the explicit `now` argument. -/
def intoOAuthToken (now : Nat) (r : SpotifyTokenResponse) : OAuthToken :=
  { access_token := r.access_token
    refresh_token := r.refresh_token
    expires_at := some (now + r.expires_in)
    token_type := r.token_type
    scope := r.scope }

/-- `SpotifyProvider::refresh_token` (`provider/spotify.rs` lines 201-220).
The HTTP round trip is abstracted: a successful token-endpoint response is
the explicit `resp` argument (request failure is outside this claim). -/
def refreshToken (now : Nat) (token : OAuthToken) (resp : SpotifyTokenResponse) :
    Except String OAuthToken :=
  match token.refresh_token with
  | none => .error "No refresh token available"
  | some _ =>
    let new_token := intoOAuthToken now resp
    let new_token :=
      if new_token.refresh_token.isNone then
        { new_token with refresh_token := token.refresh_token }
      else new_token
    .ok new_token

/-- C8: after a successful token-endpoint response, the refreshed token's
`refresh_token` is the response's one when present, and the old token's one
when the response omits it. -/
theorem refresh_token_carries_forward (now : Nat) (old : OAuthToken)
    (resp : SpotifyTokenResponse) (r : String) (h : old.refresh_token = some r) :
    ∃ tok, refreshToken now old resp = .ok tok
      ∧ tok.refresh_token = resp.refresh_token.or old.refresh_token
      ∧ tok.access_token = resp.access_token
      ∧ tok.expires_at = some (now + resp.expires_in) := by
  cases hr : resp.refresh_token with
  | some s =>
    refine ⟨intoOAuthToken now resp, ?_, ?_, rfl, rfl⟩
    · simp [refreshToken, h, intoOAuthToken, hr]
    · simp [intoOAuthToken, hr]
  | none =>
    refine ⟨{ intoOAuthToken now resp with refresh_token := old.refresh_token },
      ?_, ?_, rfl, rfl⟩
    · simp [refreshToken, h, intoOAuthToken, hr]
    · simp [hr]

/-- A concrete old token for the C8 witness. -/
def wOld : OAuthToken :=
  { access_token := "a0", refresh_token := some "r0", expires_at := some 10,
    token_type := "Bearer", scope := none }

/-- A concrete token response omitting the refresh token, for the C8
witness. -/
def wResp : SpotifyTokenResponse :=
  { access_token := "a1", token_type := "Bearer", expires_in := 3600,
    refresh_token := none, scope := some "sc" }

theorem refresh_token_carries_forward_witness :
    ∃ tok, refreshToken 5 wOld wResp = .ok tok
      ∧ tok.refresh_token = wResp.refresh_token.or wOld.refresh_token
      ∧ tok.access_token = wResp.access_token
      ∧ tok.expires_at = some (5 + wResp.expires_in) :=
  refresh_token_carries_forward 5 wOld wResp "r0" rfl

/-- One HTTP mutation issued by `SpotifyProvider::apply`
(`provider/spotify.rs` lines 274-341): a DELETE of a track URI, a POST of a
track URI at a position, or a PUT reorder with `range_start`,
`insert_before` and `range_length`. -/
inductive SpotifyRequest where
  | deleteTrack (uri : String)
  | addTrack (uri : String) (position : Nat)
  | reorder (range_start insert_before range_length : Nat)
deriving DecidableEq, Repr

/-- `format!("spotify:track:{}", track.id)`. -/
def trackUri (t : Track) : String := "spotify:track:" ++ t.id

/-- The request sequence issued by `SpotifyProvider::apply`: three passes
over `patch.changes`, issuing every removal, then every addition, then every
move, with `insert_before = if from < to { to + 1 } else { *to }` and
`range_length = 1`.  (The HTTP transport and its failure handling are
abstracted away; this is the sequence of mutation requests sent on the
all-success path.) -/
def spotifyApply (patch : DiffPatch) : List SpotifyRequest :=
  let dels := patch.changes.filterMap fun c =>
    match c with
    | .Removed t _ => some (SpotifyRequest.deleteTrack (trackUri t))
    | _ => none
  let adds := patch.changes.filterMap fun c =>
    match c with
    | .Added t i => some (SpotifyRequest.addTrack (trackUri t) i)
    | _ => none
  let movs := patch.changes.filterMap fun c =>
    match c with
    | .Moved _ f t => some (SpotifyRequest.reorder f (if f < t then t + 1 else t) 1)
    | _ => none
  dels ++ adds ++ movs

/-- C3: for a single-move patch the reorder request carries
`range_start = from`, `range_length = 1`, and `insert_before = to + 1` when
`from < to` and `to` when `from ≥ to`; and every apply issues all deletions
before all additions before all reorders. -/
theorem spotify_reorder_translation :
    (∀ (t : Track) (f i : Nat), f < i →
      spotifyApply ⟨[.Moved t f i]⟩ = [.reorder f (i + 1) 1])
    ∧ (∀ (t : Track) (f i : Nat), i ≤ f →
      spotifyApply ⟨[.Moved t f i]⟩ = [.reorder f i 1])
    ∧ (∀ p : DiffPatch, ∃ ds as ms,
        spotifyApply p = ds ++ as ++ ms
        ∧ (∀ r ∈ ds, ∃ u, r = SpotifyRequest.deleteTrack u)
        ∧ (∀ r ∈ as, ∃ u i, r = SpotifyRequest.addTrack u i)
        ∧ (∀ r ∈ ms, ∃ a b c, r = SpotifyRequest.reorder a b c)) := by
  refine ⟨fun t f i h => ?_, fun t f i h => ?_, fun p => ?_⟩
  · simp [spotifyApply, if_pos h]
  · simp [spotifyApply, if_neg (not_lt.mpr h)]
  · refine ⟨_, _, _, rfl, ?_, ?_, ?_⟩
    · intro r hr
      rcases List.mem_filterMap.mp hr with ⟨c, _, hc⟩
      cases c with
      | Removed t i => exact ⟨trackUri t, (Option.some.inj hc).symm⟩
      | Added t i => exact absurd hc (by simp)
      | Moved t f i => exact absurd hc (by simp)
    · intro r hr
      rcases List.mem_filterMap.mp hr with ⟨c, _, hc⟩
      cases c with
      | Added t i => exact ⟨trackUri t, i, (Option.some.inj hc).symm⟩
      | Removed t i => exact absurd hc (by simp)
      | Moved t f i => exact absurd hc (by simp)
    · intro r hr
      rcases List.mem_filterMap.mp hr with ⟨c, _, hc⟩
      cases c with
      | Moved t f i =>
        exact ⟨f, if f < i then i + 1 else i, 1, (Option.some.inj hc).symm⟩
      | Removed t i => exact absurd hc (by simp)
      | Added t i => exact absurd hc (by simp)

theorem spotify_reorder_translation_witness :
    spotifyApply ⟨[.Moved (wTrack "m") 0 2]⟩ = [.reorder 0 3 1]
    ∧ spotifyApply ⟨[.Moved (wTrack "m") 3 1]⟩ = [.reorder 3 1 1] :=
  ⟨spotify_reorder_translation.1 (wTrack "m") 0 2 (by decide),
   spotify_reorder_translation.2.1 (wTrack "m") 3 1 (by decide)⟩

/-! ## Journal (`state/journal.rs`) -/

/-- The `Operation` enum exactly as declared at `state/journal.rs` lines
7-13: four variants.  (The sibling command module
`cli/commands/staging.rs` refers to an `Operation::Commit` variant and a
`JournalEntry::new_with_message` constructor that this declaration does not
provide.) -/
inductive Operation where
  | Init
  | Pull
  | Push
  | Apply
deriving DecidableEq, Repr, Fintype

/-- `JournalEntry` (`state/journal.rs` lines 16-25); the
`DateTime<Utc>` timestamp is modelled as an abstract `Nat` instant. -/
structure JournalEntry where
  timestamp : Nat
  operation : Operation
  snapshot_hash : String
  added : Nat
  removed : Nat
  moved : Nat
  message : Option String
deriving DecidableEq, Repr

/-- `JournalEntry::new` (`state/journal.rs` lines 27-38); `Utc::now()` is the
explicit `now` argument.  Note it always sets `message : None` and there is
no message parameter. -/
def JournalEntry.new (now : Nat) (op : Operation) (hash : String)
    (added removed moved : Nat) : JournalEntry :=
  { timestamp := now
    operation := op
    snapshot_hash := hash
    added := added
    removed := removed
    moved := moved
    message := none }

/-- C4 (evaluating the code as written): the `Operation` enum has exactly the
four kinds `Init`, `Pull`, `Push`, `Apply` — there is no `Commit` or `Revert`
kind — and an entry built by `JournalEntry::new` records the hash and the
three counts but never a user message. -/
theorem journal_operation_kinds :
    (∀ o : Operation, o = .Init ∨ o = .Pull ∨ o = .Push ∨ o = .Apply)
    ∧ Fintype.card Operation = 4
    ∧ (∀ (now : Nat) (op : Operation) (hash : String) (a r m : Nat),
        (JournalEntry.new now op hash a r m).operation = op
        ∧ (JournalEntry.new now op hash a r m).snapshot_hash = hash
        ∧ (JournalEntry.new now op hash a r m).added = a
        ∧ (JournalEntry.new now op hash a r m).removed = r
        ∧ (JournalEntry.new now op hash a r m).moved = m
        ∧ (JournalEntry.new now op hash a r m).message = none) := by
  refine ⟨fun o => ?_, by decide, fun now op hash a r m => ⟨rfl, rfl, rfl, rfl, rfl, rfl⟩⟩
  cases o
  · exact Or.inl rfl
  · exact Or.inr (Or.inl rfl)
  · exact Or.inr (Or.inr (Or.inl rfl))
  · exact Or.inr (Or.inr (Or.inr rfl))

/-- Split a character sequence at every `\n` (every segment is emitted, the
trailing one included). -/
def splitNl : List Char → List (List Char)
  | [] => [[]]
  | c :: rest =>
    if c = '\n' then [] :: splitNl rest
    else
      match splitNl rest with
      | l :: ls => (c :: l) :: ls
      | [] => [[c]]

/-- Rust `str::lines` over the character list of a string: split on `\n`
(the empty string yields no lines, a trailing newline yields no final empty
line) and strip one trailing `\r` from each line. -/
def rustLines (s : String) : List String :=
  if s.data = [] then []
  else
    let parts := splitNl s.data
    let parts := if s.data.getLast? = some '\n' then parts.dropLast else parts
    parts.map fun l =>
      String.mk (if l.getLast? = some '\r' then l.dropLast else l)

/-- Rust `ln.trim().is_empty()` for one line: true iff every character is
whitespace (trimming all leading and trailing whitespace of a line leaves
an empty string exactly when the line is all-whitespace). -/
def trimIsEmpty (l : String) : Bool := l.data.all Char.isWhitespace

/-- Rust's `collect::<Result<Vec<_>, _>>()`: collect the results, stopping
at the first `Err`. -/
def collectExcept {α β : Type} (f : α → Except String β) :
    List α → Except String (List β)
  | [] => .ok []
  | x :: xs =>
    match f x with
    | .error e => .error e
    | .ok b =>
      match collectExcept f xs with
      | .error e => .error e
      | .ok bs => .ok (b :: bs)

/-- `JournalEntry::read_all` (`state/journal.rs` lines 57-73).  The
filesystem read is the explicit `Option String` argument (`none` when
`!path.exists()`); `serde_json::from_str` on one line is the explicit
`parse` argument.  The body mirrors
`content.lines().filter(|ln| !ln.trim().is_empty()).map(parse).collect()`. -/
def read_all (parse : String → Except String JournalEntry) :
    Option String → Except String (List JournalEntry)
  | none => Except.ok []
  | some content =>
      collectExcept parse ((rustLines content).filter fun ln => !trimIsEmpty ln)

theorem collectExcept_error {α β : Type} (f : α → Except String β) :
    ∀ (l : List α) (y : α), y ∈ l → ∀ msg, f y = .error msg →
      ∃ m2, collectExcept f l = Except.error m2 := by
  intro l
  induction l with
  | nil => intro y hy; cases hy
  | cons x xs ih =>
    intro y hy msg hparse
    rcases List.mem_cons.mp hy with rfl | hy'
    · exact ⟨msg, by simp [collectExcept, hparse]⟩
    · cases hx : f x with
      | error m => exact ⟨m, by simp [collectExcept, hx]⟩
      | ok b =>
        rcases ih y hy' msg hparse with ⟨m2, hm2⟩
        exact ⟨m2, by simp [collectExcept, hx, hm2]⟩

theorem collectExcept_isOk {α β : Type} (f : α → Except String β) :
    ∀ l : List α, (∀ y ∈ l, (f y).isOk) → (collectExcept f l).isOk := by
  intro l
  induction l with
  | nil => intro _; rfl
  | cons x xs ih =>
    intro h
    cases hx : f x with
    | error m =>
      have := h x (List.mem_cons_self x xs)
      rw [hx] at this
      cases this
    | ok b =>
      have hxs := ih fun y hy => h y (List.mem_cons_of_mem x hy)
      cases hmm : collectExcept f xs with
      | error m => rw [hmm] at hxs; cases hxs
      | ok bs => simp [collectExcept, hx, hmm, Except.isOk, Except.toBool]

/-- C10: `read_all` returns the empty list (not an error) when the path does
not exist; blank lines are skipped (an all-blank file reads as the empty
list); any non-blank line that fails to parse makes the whole read fail; and
when every non-blank line parses, the read succeeds. -/
theorem read_all_behaviour :
    (∀ parse, read_all parse none = .ok [])
    ∧ (∀ parse content, (∀ ln ∈ rustLines content, trimIsEmpty ln) →
        read_all parse (some content) = .ok [])
    ∧ (∀ parse content ln msg, ln ∈ rustLines content →
        trimIsEmpty ln = false → parse ln = .error msg →
        ∃ m2, read_all parse (some content) = Except.error m2)
    ∧ (∀ parse content,
        (∀ ln ∈ rustLines content, trimIsEmpty ln = false → (parse ln).isOk) →
        (read_all parse (some content)).isOk) := by
  refine ⟨fun parse => rfl, fun parse content h => ?_,
    fun parse content ln msg hmem hnb hp => ?_, fun parse content h => ?_⟩
  · rw [read_all, List.filter_eq_nil_iff.mpr]
    · rfl
    · intro ln hln
      simp [h ln hln]
  · exact collectExcept_error parse _ ln
      (List.mem_filter.mpr ⟨hmem, by simp [hnb]⟩) msg hp
  · exact collectExcept_isOk parse _ fun y hy =>
      h y (List.mem_filter.mp hy).1 (by
        have := (List.mem_filter.mp hy).2
        simpa using this)

/-- A concrete parse function for the C10 witness: accepts the line `rec`,
rejects everything else. -/
def wParse (l : String) : Except String JournalEntry :=
  if l = "rec" then .ok (JournalEntry.new 0 .Init "h" 0 0 0) else .error "bad"

theorem read_all_behaviour_witness :
    read_all wParse none = .ok []
    ∧ (∃ m2, read_all wParse (some "rec\nzzz\n") = Except.error m2)
    ∧ (read_all wParse (some "rec\n\nrec\n")).isOk :=
  ⟨read_all_behaviour.1 wParse,
   read_all_behaviour.2.2.1 wParse "rec\nzzz\n" "zzz" "bad" (by decide) (by decide) rfl,
   read_all_behaviour.2.2.2 wParse "rec\n\nrec\n" (by decide)⟩

/-! ## CLI staging index assignment (`cli/commands/staging.rs`) -/

/-- The `Added` change staged by the `add` command
(`cli/commands/staging.rs` lines 283-290): `index = snapshot.tracks.len()`,
taken from the head snapshot alone — the already-staged patch is never
consulted. -/
def addCommandChange (snap : PlaylistSnapshot) (track : Track) : TrackChange :=
  .Added track snap.tracks.length

/-- A sequence of `add` invocations staged between commits: each loads the
same (uncommitted) head snapshot and stages its change independently. -/
def addRun (snap : PlaylistSnapshot) (ts : List Track) : List TrackChange :=
  ts.map fun t => addCommandChange snap t

/-- One selected index processed inside the `for idx in indices` loop of
`search --add` (`cli/commands/staging.rs` lines 216-241): skip index `0` or
an out-of-range index, skip a provider mismatch, otherwise stage
`Added { track, index: current_len + total_added }` and increment
`total_added`.  The state is `(total_added, staged changes so far)`. -/
def searchStep (tracks : List Track) (snapProvider : ProviderKind)
    (current_len : Nat) (st2 : Nat × List TrackChange) (idx : Nat) :
    Nat × List TrackChange :=
  if idx = 0 ∨ tracks.length < idx then st2
  else
    match tracks[idx - 1]? with
    | none => st2
    | some track =>
      if track.provider ≠ snapProvider then st2
      else (st2.1 + 1, st2.2 ++ [TrackChange.Added track (current_len + st2.1)])

/-- The staging effect of one `search --add` invocation
(`cli/commands/staging.rs` lines 203-243): for each input batch the loop
recomputes `current_len = snap.tracks.len() + total_added` (line 214) and
then stages each selected track at `current_len + total_added` (line 234),
`total_added` running across the whole invocation. -/
def searchStage (snapLen : Nat) (snapProvider : ProviderKind)
    (tracks : List Track) (batches : List (List Nat)) : List TrackChange :=
  (batches.foldl
    (fun st batch =>
      batch.foldl (searchStep tracks snapProvider (snapLen + st.1)) st)
    (0, [])).2

/-- The indices of the `Added` records of a staged change list, in order. -/
def stagedAddIndices (cs : List TrackChange) : List Nat :=
  cs.filterMap fun c =>
    match c with
    | .Added _ i => some i
    | _ => none

/-- The index sequence required by the claim (invariant I4):
`index = current_length + count_of_prior_staged_additions`. -/
def claimIndices (snapLen n : Nat) : List Nat :=
  (List.range n).map fun i => snapLen + i

/-- C5 (counterexample): on an empty playlist, `search --add` staging one
track in a first input batch and one more in a second batch assigns indices
`[0, 2]` — the second batch adds `total_added` on top of a `current_len`
that already includes it — while the claimed formula gives `[0, 1]`. -/
theorem staged_index_counterexample :
    stagedAddIndices (searchStage 0 .Spotify [wTrack "s"] [[1], [1]]) = [0, 2]
    ∧ claimIndices 0
        (stagedAddIndices (searchStage 0 .Spotify [wTrack "s"] [[1], [1]])).length
        = [0, 1]
    ∧ stagedAddIndices (searchStage 0 .Spotify [wTrack "s"] [[1], [1]])
        ≠ claimIndices 0
            (stagedAddIndices
              (searchStage 0 .Spotify [wTrack "s"] [[1], [1]])).length := by
  decide

theorem claimIndices_succ (L n : Nat) :
    claimIndices L (n + 1) = claimIndices L n ++ [L + n] := by
  simp [claimIndices, List.range_succ]

theorem searchStep_fold_invariant (L : Nat) (prov : ProviderKind)
    (tracks : List Track) :
    ∀ (batch : List Nat) (st : Nat × List TrackChange),
      stagedAddIndices st.2 = claimIndices L st.1 →
      stagedAddIndices (batch.foldl (searchStep tracks prov L) st).2
        = claimIndices L (batch.foldl (searchStep tracks prov L) st).1 := by
  intro batch
  induction batch with
  | nil => intro st h; exact h
  | cons i batch ih =>
    intro st h
    rw [List.foldl_cons]
    apply ih
    rw [searchStep]
    split
    · exact h
    · split
      · exact h
      · split
        · exact h
        · show stagedAddIndices (st.2 ++ [TrackChange.Added _ (L + st.1)])
            = claimIndices L (st.1 + 1)
          rw [stagedAddIndices] at h ⊢
          rw [List.filterMap_append, h, claimIndices_succ]
          rfl

/-- C5 (amended): the `add` command always assigns
`index = snapshot.tracks.len()`, ignoring previously staged additions; and
within a `search --add` invocation that stages a single input batch starting
from a fresh state, the i-th staged addition gets index `snapshot length + i`
(the claimed formula holds only in that first-batch case). -/
theorem staged_index_amended :
    (∀ (snap : PlaylistSnapshot) (ts : List Track),
      stagedAddIndices (addRun snap ts)
        = List.replicate ts.length snap.tracks.length)
    ∧ (∀ (L : Nat) (prov : ProviderKind) (tracks : List Track)
        (batch : List Nat),
      stagedAddIndices (searchStage L prov tracks [batch])
        = claimIndices L
            (stagedAddIndices (searchStage L prov tracks [batch])).length) := by
  constructor
  · intro snap ts
    induction ts with
    | nil => rfl
    | cons t ts ih =>
      simp only [addRun, List.map_cons, stagedAddIndices, List.filterMap_cons,
        addCommandChange, List.length_cons, List.replicate_succ]
      exact congrArg (fun l => snap.tracks.length :: l) ih
  · intro L prov tracks batch
    have hinv := searchStep_fold_invariant L prov tracks batch (0, []) rfl
    have hSS : searchStage L prov tracks [batch]
        = (batch.foldl (searchStep tracks prov L) (0, [])).2 := rfl
    have hlen : ∀ n, (claimIndices L n).length = n := by
      intro n; simp [claimIndices]
    rw [hSS, hinv, hlen]

/-- C5 (amended) witness: a single two-element batch on a 2-track snapshot
stages indices `[2, 3]`; two consecutive `add` commands both stage index
`2`. -/
theorem staged_index_amended_witness :
    stagedAddIndices (addRun cxA [wTrack "u", wTrack "v"])
      = List.replicate 2 2
    ∧ stagedAddIndices (searchStage 2 .Spotify [wTrack "u", wTrack "v"] [[1, 2]])
      = claimIndices 2
          (stagedAddIndices
            (searchStage 2 .Spotify [wTrack "u", wTrack "v"] [[1, 2]])).length :=
  ⟨staged_index_amended.1 cxA [wTrack "u", wTrack "v"],
   staged_index_amended.2 2 .Spotify [wTrack "u", wTrack "v"] [1, 2]⟩

/-! ## Content hashing (`state/snapshot.rs`, `compute_hash`)

`compute_hash` serializes the snapshot with `serde_yaml::to_string`, hashes
the bytes with SHA-256 (`sha2` crate) and renders the first 6 digest bytes
as 12 lowercase hex characters.  SHA-256 is embedded below in full (FIPS
180-4), over `Nat` with explicit `% 2^32`. -/

/-- Truncated 32-bit addition. -/
def add32 (a b : Nat) : Nat := (a + b) % 4294967296

/-- 32-bit right rotation. -/
def rotr (n x : Nat) : Nat := ((x >>> n) ||| (x <<< (32 - n))) % 4294967296

/-- SHA-256 `Ch(x, y, z)`; 32-bit complement is xor with `2^32 - 1`. -/
def shaCh (x y z : Nat) : Nat := (x &&& y) ^^^ ((x ^^^ 4294967295) &&& z)

/-- SHA-256 `Maj(x, y, z)`. -/
def shaMaj (x y z : Nat) : Nat := (x &&& y) ^^^ (x &&& z) ^^^ (y &&& z)

/-- SHA-256 `Σ0`. -/
def bigS0 (x : Nat) : Nat := rotr 2 x ^^^ rotr 13 x ^^^ rotr 22 x

/-- SHA-256 `Σ1`. -/
def bigS1 (x : Nat) : Nat := rotr 6 x ^^^ rotr 11 x ^^^ rotr 25 x

/-- SHA-256 `σ0`. -/
def smallS0 (x : Nat) : Nat := rotr 7 x ^^^ rotr 18 x ^^^ (x >>> 3)

/-- SHA-256 `σ1`. -/
def smallS1 (x : Nat) : Nat := rotr 17 x ^^^ rotr 19 x ^^^ (x >>> 10)

/-- The 64 SHA-256 round constants (FIPS 180-4 §4.2.2, written in
decimal). -/
def shaK : List Nat :=
  [1116352408, 1899447441, 3049323471, 3921009573, 961987163, 1508970993,
   2453635748, 2870763221, 3624381080, 310598401, 607225278, 1426881987,
   1925078388, 2162078206, 2614888103, 3248222580, 3835390401, 4022224774,
   264347078, 604807628, 770255983, 1249150122, 1555081692, 1996064986,
   2554220882, 2821834349, 2952996808, 3210313671, 3336571891, 3584528711,
   113926993, 338241895, 666307205, 773529912, 1294757372, 1396182291,
   1695183700, 1986661051, 2177026350, 2456956037, 2730485921, 2820302411,
   3259730800, 3345764771, 3516065817, 3600352804, 4094571909, 275423344,
   430227734, 506948616, 659060556, 883997877, 958139571, 1322822218,
   1537002063, 1747873779, 1955562222, 2024104815, 2227730452, 2361852424,
   2428436474, 2756734187, 3204031479, 3329325298]

/-- The eight 32-bit SHA-256 working variables. -/
structure Sha256State where
  a : Nat
  b : Nat
  c : Nat
  d : Nat
  e : Nat
  f : Nat
  g : Nat
  h : Nat
deriving DecidableEq, Repr

/-- The SHA-256 initial hash value (FIPS 180-4 §5.3.3, written in
decimal). -/
def shaInitState : Sha256State :=
  ⟨1779033703, 3144134277, 1013904242, 2773480762,
   1359893119, 2600822924, 528734635, 1541459225⟩

/-- Big-endian 32-bit words from bytes (the block is exactly 64 bytes). -/
def bytesToWords : List Nat → List Nat
  | b0 :: b1 :: b2 :: b3 :: rest =>
      (((b0 * 256 + b1) * 256 + b2) * 256 + b3) :: bytesToWords rest
  | _ => []

/-- Extend the 16 block words to the 64-entry message schedule. -/
def scheduleFold (ws : List Nat) : List Nat :=
  (List.range 48).foldl
    (fun acc _ =>
      let n := acc.length
      acc ++ [add32 (add32 (smallS1 (acc.getD (n - 2) 0)) (acc.getD (n - 7) 0))
        (add32 (smallS0 (acc.getD (n - 15) 0)) (acc.getD (n - 16) 0))])
    ws

/-- One SHA-256 round, consuming one `(k, w)` pair. -/
def compressWord (st : Sha256State) (kw : Nat × Nat) : Sha256State :=
  let t1 := add32 st.h (add32 (bigS1 st.e)
    (add32 (shaCh st.e st.f st.g) (add32 kw.1 kw.2)))
  let t2 := add32 (bigS0 st.a) (shaMaj st.a st.b st.c)
  ⟨add32 t1 t2, st.a, st.b, st.c, add32 st.d t1, st.e, st.f, st.g⟩

/-- Process one 64-byte block: 64 rounds, then add into the chaining
state. -/
def compressBlock (st : Sha256State) (block : List Nat) : Sha256State :=
  let ws := scheduleFold (bytesToWords block)
  let s2 := (shaK.zip ws).foldl compressWord st
  ⟨add32 st.a s2.a, add32 st.b s2.b, add32 st.c s2.c, add32 st.d s2.d,
   add32 st.e s2.e, add32 st.f s2.f, add32 st.g s2.g, add32 st.h s2.h⟩

/-- The 8-byte big-endian bit-length trailer. -/
def lenBytes (n : Nat) : List Nat :=
  [n / 72057594037927936 % 256, n / 281474976710656 % 256,
   n / 1099511627776 % 256, n / 4294967296 % 256,
   n / 16777216 % 256, n / 65536 % 256, n / 256 % 256, n % 256]

/-- SHA-256 padding: append `0x80`, zero bytes up to 56 mod 64, then the
message bit length. -/
def padMessage (msg : List Nat) : List Nat :=
  msg ++ [128] ++ List.replicate ((119 - msg.length % 64) % 64) 0
    ++ lenBytes (msg.length * 8)

/-- Split the padded message into 64-byte blocks. -/
def toBlocks (l : List Nat) : List (List Nat) :=
  if h : l = [] then []
  else l.take 64 :: toBlocks (l.drop 64)
termination_by l.length
decreasing_by
  have : 0 < l.length := List.length_pos.mpr h
  simp [List.length_drop]
  omega

/-- The four big-endian bytes of a 32-bit word. -/
def wordBytes (w : Nat) : List Nat :=
  [w / 16777216 % 256, w / 65536 % 256, w / 256 % 256, w % 256]

/-- The 32 digest bytes of a final state. -/
def stateToBytes (s : Sha256State) : List Nat :=
  wordBytes s.a ++ wordBytes s.b ++ wordBytes s.c ++ wordBytes s.d
    ++ wordBytes s.e ++ wordBytes s.f ++ wordBytes s.g ++ wordBytes s.h

/-- SHA-256 of a byte sequence (each input byte `< 256`). -/
def sha256 (msg : List Nat) : List Nat :=
  stateToBytes ((toBlocks (padMessage msg)).foldl compressBlock shaInitState)

/-- UTF-8 encoding of one code point. -/
def utf8EncodeChar (n : Nat) : List Nat :=
  if n < 128 then [n]
  else if n < 2048 then [192 + n / 64, 128 + n % 64]
  else if n < 65536 then [224 + n / 4096, 128 + n / 64 % 64, 128 + n % 64]
  else [240 + n / 262144, 128 + n / 4096 % 64, 128 + n / 64 % 64, 128 + n % 64]

/-- The UTF-8 bytes of a string (`yaml.as_bytes()`). -/
def utf8Bytes (s : String) : List Nat :=
  s.data.foldr (fun c acc => utf8EncodeChar c.toNat ++ acc) []

/-- YAML rendering of an optional string. -/
def yamlOpt (o : Option String) : String :=
  match o with
  | none => "null"
  | some s => s

/-- YAML tag of a provider kind. -/
def providerName (p : ProviderKind) : String :=
  match p with
  | .Spotify => "spotify"
  | .Youtube => "youtube"

/-- Modelled from the spec: one track of the canonical snapshot
serialization (§4.A, §6) — `serde_yaml::to_string` over the derived
`Serialize` of `Track`, whose declaring file `provider/types.rs` is absent
from the sources.  A deterministic text rendering with fixed field order;
the proved hash properties depend only on the serialization being a
function of the snapshot value, not on the exact rendering. -/
def serializeTrack (t : Track) : String :=
  "- id: " ++ t.id ++ "\n  name: " ++ t.name
    ++ "\n  artists: " ++ String.intercalate ", " t.artists
    ++ "\n  duration_ms: " ++ toString t.duration_ms
    ++ "\n  provider: " ++ providerName t.provider
    ++ "\n  metadata: " ++ yamlOpt t.metadata ++ "\n"

/-- Modelled from the spec: the canonical snapshot serialization (§4.A, §6)
— `serde_yaml::to_string` over the derived `Serialize` of
`PlaylistSnapshot` (declaring file absent from the sources), fields in
declaration order. -/
def serializeSnapshot (s : PlaylistSnapshot) : String :=
  "id: " ++ s.id ++ "\nname: " ++ s.name
    ++ "\ndescription: " ++ yamlOpt s.description
    ++ "\ntracks:\n" ++ String.join (s.tracks.map serializeTrack)
    ++ "provider: " ++ providerName s.provider
    ++ "\nsnapshot_hash: " ++ s.snapshot_hash
    ++ "\nmetadata: " ++ yamlOpt s.metadata

/-- One lowercase hex digit. -/
def hexDigitChar (n : Nat) : Char := "0123456789abcdef".data.getD n '0'

/-- The two lowercase hex characters of one byte
(`format!("{:02x}", b)`). -/
def byteHexChars (b : Nat) : List Char :=
  [hexDigitChar (b / 16 % 16), hexDigitChar (b % 16)]

/-- `compute_hash` (`state/snapshot.rs` lines 8-22): serialize, SHA-256,
take the first 6 digest bytes as lowercase hex
(`result.iter().take(6).map(|b| format!("{:02x}", b)).collect()`).  The Rust
function returns `Result` but the serialization of these value types cannot
fail, so the embedding is total. -/
def compute_hash (s : PlaylistSnapshot) : String :=
  String.mk (((sha256 (utf8Bytes (serializeSnapshot s))).take 6).foldr
    (fun b acc => byteHexChars b ++ acc) [])

/-! ## Properties of `compute_hash` -/

theorem wordBytes_lt (w : Nat) : ∀ b ∈ wordBytes w, b < 256 := by
  intro b hb
  rcases (by simpa [wordBytes] using hb : b = w / 16777216 % 256
      ∨ b = w / 65536 % 256 ∨ b = w / 256 % 256 ∨ b = w % 256)
    with rfl | rfl | rfl | rfl
  all_goals exact Nat.mod_lt _ (by norm_num)

theorem stateToBytes_lt (s : Sha256State) : ∀ b ∈ stateToBytes s, b < 256 := by
  intro b hb
  rcases (by simpa [stateToBytes, List.mem_append, or_assoc] using hb :
      b ∈ wordBytes s.a ∨ b ∈ wordBytes s.b ∨ b ∈ wordBytes s.c
      ∨ b ∈ wordBytes s.d ∨ b ∈ wordBytes s.e ∨ b ∈ wordBytes s.f
      ∨ b ∈ wordBytes s.g ∨ b ∈ wordBytes s.h)
    with h | h | h | h | h | h | h | h
  all_goals exact wordBytes_lt _ b h

theorem stateToBytes_length (s : Sha256State) : (stateToBytes s).length = 32 := by
  simp [stateToBytes, wordBytes]

theorem sha256_length (m : List Nat) : (sha256 m).length = 32 :=
  stateToBytes_length _

theorem sha256_lt (m : List Nat) : ∀ b ∈ sha256 m, b < 256 :=
  stateToBytes_lt _

instance : Infinite PlaylistSnapshot :=
  Infinite.of_injective
    (fun n => { id := String.mk (List.replicate n 'a'), name := "",
                description := none, tracks := [], provider := .Spotify,
                snapshot_hash := "", metadata := none })
    (fun a b hab => by
      simpa using congrArg (fun s => s.id.data.length) hab)

/-- The first six digest bytes of a snapshot's hash, as an element of the
finite type `Fin 6 → Fin 256` (for the pigeonhole argument). -/
def hashFin (s : PlaylistSnapshot) : Fin 6 → Fin 256 := fun i =>
  ⟨(sha256 (utf8Bytes (serializeSnapshot s))).getD i.1 0 % 256,
   Nat.mod_lt _ (by norm_num)⟩

theorem compute_hash_of_hashFin_eq {A A' : PlaylistSnapshot}
    (h : hashFin A = hashFin A') : compute_hash A = compute_hash A' := by
  have hdig : (sha256 (utf8Bytes (serializeSnapshot A))).take 6
      = (sha256 (utf8Bytes (serializeSnapshot A'))).take 6 := by
    apply List.ext_getElem
    · simp [sha256_length]
    · intro n h1 h2
      have hn : n < 6 := by
        have := h1
        simp [sha256_length] at this
        omega

      have hfe := congrFun h ⟨n, hn⟩
      have hval := congrArg Fin.val hfe
      have hlt : ∀ m : List Nat,
          (sha256 m).getD n 0 % 256 = (sha256 m).getD n 0 := by
        intro m
        by_cases hnl : n < (sha256 m).length
        · rw [List.getD_eq_getElem _ _ hnl]
          exact Nat.mod_eq_of_lt (sha256_lt m _ (List.getElem_mem hnl))
        · rw [List.getD_eq_default _ _ (not_lt.mp hnl)]
      simp only [hashFin, hlt] at hval
      have g1 : n < (sha256 (utf8Bytes (serializeSnapshot A))).length := by
        rw [sha256_length]; omega
      have g2 : n < (sha256 (utf8Bytes (serializeSnapshot A'))).length := by
        rw [sha256_length]; omega
      rw [List.getElem_take, List.getElem_take,
        ← List.getD_eq_getElem _ 0 g1, ← List.getD_eq_getElem _ 0 g2]
      exact hval
  show String.mk (((sha256 (utf8Bytes (serializeSnapshot A))).take 6).foldr
      (fun b acc => byteHexChars b ++ acc) []) = _
  rw [hdig]
  rfl

/-- C7 (counterexample): `compute_hash(A) == compute_hash(A') iff A == A'`
is false: the hash is 48 bits wide while snapshots are unbounded, so by
pigeonhole two distinct snapshots share a hash (the forward direction of the
claimed iff fails for them). -/
theorem compute_hash_iff_counterexample :
    ¬ (∀ A A' : PlaylistSnapshot,
        compute_hash A = compute_hash A' ↔ A = A') := by
  intro hcl
  obtain ⟨A, A', hne, hfe⟩ := Finite.exists_ne_map_eq_of_infinite hashFin
  exact hne ((hcl A A').mp (compute_hash_of_hashFin_eq hfe))

theorem hexDigitChar_mem (n : Nat) :
    hexDigitChar n ∈ "0123456789abcdef".data := by
  rw [hexDigitChar]
  by_cases hlt : n < "0123456789abcdef".data.length
  · rw [List.getD_eq_getElem _ _ hlt]
    exact List.getElem_mem hlt
  · rw [List.getD_eq_default _ _ (not_lt.mp hlt)]
    decide

theorem foldr_byteHexChars_length (bs : List Nat) :
    (bs.foldr (fun b acc => byteHexChars b ++ acc) []).length
      = 2 * bs.length := by
  induction bs with
  | nil => rfl
  | cons b bs ih =>
    rw [List.foldr_cons, List.length_append, ih,
      show (byteHexChars b).length = 2 from rfl, List.length_cons]
    omega

theorem foldr_byteHexChars_mem (bs : List Nat) :
    ∀ c ∈ bs.foldr (fun b acc => byteHexChars b ++ acc) [],
      c ∈ "0123456789abcdef".data := by
  induction bs with
  | nil => intro c hc; cases hc
  | cons b bs ih =>
    intro c hc
    rcases List.mem_append.mp hc with hc | hc
    · rcases (by simpa [byteHexChars] using hc :
          c = hexDigitChar (b / 16 % 16) ∨ c = hexDigitChar (b % 16))
        with rfl | rfl
      all_goals exact hexDigitChar_mem _
    · exact ih c hc

/-- C7 (amended): `compute_hash` is the first 6 bytes of the SHA-256 digest
of the canonical serialization as 12 lowercase hex characters, and equal
snapshots always hash alike; the converse (`equal hash → equal values`)
cannot hold over the 48-bit space, see the counterexample. -/
theorem compute_hash_spec (A A' : PlaylistSnapshot) :
    (A = A' → compute_hash A = compute_hash A')
    ∧ (compute_hash A).length = 12
    ∧ (∀ c ∈ (compute_hash A).data, c ∈ "0123456789abcdef".data)
    ∧ compute_hash A
        = String.mk (((sha256 (utf8Bytes (serializeSnapshot A))).take 6).foldr
            (fun b acc => byteHexChars b ++ acc) []) := by
  refine ⟨fun he => he ▸ rfl, ?_, ?_, rfl⟩
  · show (String.mk (((sha256 (utf8Bytes (serializeSnapshot A))).take 6).foldr
        (fun b acc => byteHexChars b ++ acc) [])).length = 12
    rw [show ∀ l : List Char, (String.mk l).length = l.length from fun l => rfl,
      foldr_byteHexChars_length, List.length_take, sha256_length]
    decide
  · intro c hc
    exact foldr_byteHexChars_mem _ c hc

theorem compute_hash_spec_witness :
    compute_hash cxA = compute_hash cxA
    ∧ (compute_hash cxA).length = 12
    ∧ (∀ c ∈ (compute_hash cxA).data, c ∈ "0123456789abcdef".data) :=
  ⟨(compute_hash_spec cxA cxA).1 rfl, (compute_hash_spec cxA cxA).2.1,
   (compute_hash_spec cxA cxA).2.2.1⟩

end Grit


